import Mathlib

/-!
Verification of the yOTP core: the RFC 4648 Base32 decoder
(`src/core/src/base32.rs`) and the RFC 4226/6238 HOTP/TOTP engine
(`src/core/src/otp.rs`), embedded shallowly.  Bytes are `Nat` values kept
below 256 by an explicit `% 256` wherever a Rust `u8` operation can
overflow; the HMAC-SHA1 primitive is an abstract parameter constrained only
by its output contract, exactly as the project treats it (an external
collaborator).  A Rust `panic!` is modelled by `PanicOr.panicked`.
-/

namespace Yotp

/-- Base32 symbol table, from `decode_char` in base32.rs: maps the characters
`A`..`Z`, `2`..`7` to the 5-bit values 0..31; `=` and every other character
map to `none`. -/
def decode_char (v : Char) : Option Nat :=
  match v with
  | 'A' => some 0
  | 'B' => some 1
  | 'C' => some 2
  | 'D' => some 3
  | 'E' => some 4
  | 'F' => some 5
  | 'G' => some 6
  | 'H' => some 7
  | 'I' => some 8
  | 'J' => some 9
  | 'K' => some 10
  | 'L' => some 11
  | 'M' => some 12
  | 'N' => some 13
  | 'O' => some 14
  | 'P' => some 15
  | 'Q' => some 16
  | 'R' => some 17
  | 'S' => some 18
  | 'T' => some 19
  | 'U' => some 20
  | 'V' => some 21
  | 'W' => some 22
  | 'X' => some 23
  | 'Y' => some 24
  | 'Z' => some 25
  | '2' => some 26
  | '3' => some 27
  | '4' => some 28
  | '5' => some 29
  | '6' => some 30
  | '7' => some 31
  | '=' => none
  | _ => none

/-- Rust `char::to_ascii_uppercase`, applied to every input character by
`decode`: ASCII lowercase letters (code points 97..122) are shifted down by
32; every other character is unchanged. -/
def to_ascii_uppercase (c : Char) : Char :=
  if 97 ≤ c.toNat ∧ c.toNat ≤ 122 then Char.ofNat (c.toNat - 32) else c

/-- One iteration of the decoder loop body: the `match i` block of `decode`
in base32.rs (lines 22-66).  Arguments are the state `i` (bits already
filled in the current output byte), the incoming 5-bit value `v`, and the
current accumulator byte `next`.  Returns the new accumulator byte, the
next state, and the byte handed to `put_u8`, if any.  A `u8` left shift
keeps only the low 8 bits, hence the `% 256` on the shifts that can
overflow. -/
def decode_step (i v next : Nat) : Nat × Nat × Option Nat :=
  match i with
  | 0 => (next ||| (v <<< 3), 5, none)
  | 1 => (next ||| (v <<< 2), 6, none)
  | 2 => (next ||| (v <<< 1), 7, none)
  | 3 => (0, 0, some (next ||| v))
  | 4 => ((v <<< 7) % 256, 1, some (next ||| (v >>> 1)))
  | 5 => ((v <<< 6) % 256, 2, some (next ||| (v >>> 2)))
  | 6 => ((v <<< 5) % 256, 3, some (next ||| (v >>> 3)))
  | 7 => ((v <<< 4) % 256, 4, some (next ||| (v >>> 4)))
  | _ => (next, 0, none)

/-- The `for ele in values` loop of `decode` in base32.rs: stops at the
first `=`, fails on a character outside the alphabet, and otherwise runs
the bit accumulator, appending each completed byte to `buf`. -/
def decodeAux : List Char → Nat → Nat → List Nat → Option (List Nat)
  | [], _, _, buf => some buf
  | ele :: rest, next, i, buf =>
    if ele = '=' then some buf
    else
      match decode_char ele with
      | none => none
      | some v =>
        match decode_step i v next with
        | (next2, i2, none) => decodeAux rest next2 i2 buf
        | (next2, i2, some b) => decodeAux rest next2 i2 (buf ++ [b])

/-- `decode` from base32.rs: uppercase every character, then run the
accumulator loop from state 0 with an empty buffer.  `none` is the
decode-failure (`Option::None` in the source). -/
def decode (value : String) : Option (List Nat) :=
  decodeAux (value.data.map to_ascii_uppercase) 0 0 []

/-- Modelled from the spec: the 8-state transition table of section 4.1,
written exactly as the table states it (state = bits already filled;
`byte` is the partial output byte; the third component is the emitted
byte, with `u8` shift semantics).  Declared only to be compared against
`decode_step`, the table extracted from the source. -/
def spec_transition (state v byte : Nat) : Nat × Nat × Option Nat :=
  match state with
  | 0 => (byte ||| (v <<< 3), 5, none)
  | 1 => (byte ||| (v <<< 2), 6, none)
  | 2 => (byte ||| (v <<< 1), 7, none)
  | 3 => (0, 0, some (byte ||| v))
  | 4 => ((v <<< 7) % 256, 1, some (byte ||| (v >>> 1)))
  | 5 => ((v <<< 6) % 256, 2, some (byte ||| (v >>> 2)))
  | 6 => ((v <<< 5) % 256, 3, some (byte ||| (v >>> 3)))
  | 7 => ((v <<< 4) % 256, 4, some (byte ||| (v >>> 4)))
  | _ => (byte, 0, none)

/-- The uppercased form of a string, character by character. -/
def uppercase (s : String) : String :=
  String.mk (s.data.map to_ascii_uppercase)

/-- Number of input symbols the decoder actually consumes: the characters
(after uppercasing) strictly before the first `=`. -/
def consumed_symbols (s : String) : Nat :=
  ((s.data.map to_ascii_uppercase).takeWhile (fun c => c != '=')).length

/-- Big-endian encoding of a u64 counter, from `big_endian_u64` in otp.rs:
byte `i` is `(v & (0xFF << (7-i)*8)) >> ((7-i)*8)`. -/
def big_endian_u64 (v : Nat) : List Nat :=
  (List.range 8).map (fun i =>
    let offset := (7 - i) * 8
    let mask := (0xFF : Nat) <<< offset
    (v &&& mask) >>> offset)

/-- `extract31` from otp.rs: or together the four bytes
`hash[offset .. offset+3]` big-endian into a 32-bit value, then clear the
top bit with `& 0x7FFFFFFF`.  Rust indexing would terminate on an
out-of-bounds index; the dynamic-truncation theorem shows the indices
`hotp` uses stay below the 20-byte digest length, where `getD` coincides
with plain indexing. -/
def extract31 (hash : List Nat) (offset : Nat) : Nat :=
  ((List.range 4).foldl (fun value i =>
    value ||| (hash.getD (offset + i) 0 <<< ((3 - i) * 8))) 0) &&& 0x7FFFFFFF

/-- The digit loop of `hotp` in otp.rs (lines 46-51): pushes
`'0' as u8 + hotp_num % 10` and divides `hotp_num` by 10, `digit_len`
times; digit byte values come out least-significant first, in push
order. -/
def hotp_digits : Nat → Nat → List Nat
  | _, 0 => []
  | num, k + 1 => ('0'.toNat + num % 10) :: hotp_digits (num / 10) k

/-- Result of a Rust function that can terminate the process: `panicked`
models a `panic!` or another process-terminating fault, `ret` a normal
return value. -/
inductive PanicOr (α : Type) where
  | panicked : PanicOr α
  | ret : α → PanicOr α
deriving DecidableEq

/-- `hotp` from otp.rs, parametrised by the external HMAC-SHA1 primitive
(`hmac_sha1 key message` is the digest byte sequence).  A digit length
outside 6..8 hits the `panic!` at line 30; otherwise the last digest
byte's low nibble selects the `extract31` window and the digit loop
renders the result (the final UTF-8 conversion is the map to `Char`). -/
def hotp (hmac_sha1 : List Nat → List Nat → List Nat) (key : List Nat) (c : Nat)
    (digit_len : Nat) : PanicOr String :=
  if digit_len < 6 ∨ digit_len > 8 then PanicOr.panicked
  else
    let hash := hmac_sha1 key (big_endian_u64 c)
    let length := hash.length
    let offset := hash.getD (length - 1) 0 &&& 0xF
    let hotp_num := extract31 hash offset
    PanicOr.ret (String.mk ((hotp_digits hotp_num digit_len).reverse.map Char.ofNat))

/-- `totp` from otp.rs.  The source reads `SystemTime::now()` internally
(line 70); the seconds value that clock read yields is modelled as the
explicit argument `t`.  The unchecked `u64` subtraction `t - t0` wraps
modulo `2^64` on underflow (release-profile semantics; debug builds abort
instead), and the division terminates the process when `interval = 0`. -/
def totp (hmac_sha1 : List Nat → List Nat → List Nat) (key : List Nat)
    (t0 interval t : Nat) : PanicOr String :=
  if interval = 0 then PanicOr.panicked
  else hotp hmac_sha1 key ((t + 2 ^ 64 - t0) % 2 ^ 64 / interval) 6

/-- The output contract of the external HMAC-SHA1 collaborator: a 20-byte
digest whose entries are bytes. -/
def HmacContract (f : List Nat → List Nat → List Nat) : Prop :=
  ∀ key msg, (f key msg).length = 20 ∧ ∀ b ∈ f key msg, b < 256

/-- A trivial digest function satisfying `HmacContract`, used to
instantiate theorems at concrete inputs. -/
def zero_hmac : List Nat → List Nat → List Nat := fun _ _ => List.replicate 20 0

theorem zero_hmac_contract : HmacContract zero_hmac := by
  intro key msg
  constructor
  · rfl
  · intro b hb
    simp [zero_hmac] at hb
    omega

theorem decodeAux_takeWhile (cs : List Char) : ∀ (next i : Nat) (buf : List Nat),
    decodeAux cs next i buf = decodeAux (cs.takeWhile (fun c => c != '=')) next i buf := by
  induction cs with
  | nil => intro next i buf; rfl
  | cons c rest ih =>
    intro next i buf
    by_cases hc : c = '='
    · subst hc
      simp [decodeAux, List.takeWhile_cons]
    · rw [List.takeWhile_cons_of_pos (by simp [hc])]
      simp only [decodeAux, if_neg hc]
      cases hdp : decode_char c with
      | none => rfl
      | some v =>
        rcases hds : decode_step i v next with ⟨next2, i2, em⟩
        cases em <;> simp [hds, ih]

theorem decodeAux_none_iff (cs : List Char) : ∀ (next i : Nat) (buf : List Nat),
    (decodeAux cs next i buf = none ↔
      ∃ c ∈ cs.takeWhile (fun c => c != '='), decode_char c = none) := by
  induction cs with
  | nil => intro next i buf; simp [decodeAux]
  | cons c rest ih =>
    intro next i buf
    by_cases hc : c = '='
    · subst hc
      simp [decodeAux, List.takeWhile_cons]
    · rw [List.takeWhile_cons_of_pos (by simp [hc])]
      simp only [decodeAux, if_neg hc]
      cases hdp : decode_char c with
      | none => simp [hdp]
      | some v =>
        rcases hds : decode_step i v next with ⟨next2, i2, em⟩
        cases em <;> simp [hds, ih, hdp]

theorem decodeAux_length (cs : List Char) : ∀ (next i : Nat) (buf bs : List Nat), i < 8 →
    decodeAux cs next i buf = some bs →
    bs.length = buf.length + (i + 5 * (cs.takeWhile (fun c => c != '=')).length) / 8 := by
  induction cs with
  | nil =>
    intro next i buf bs hi h
    simp only [decodeAux, Option.some_inj] at h
    subst h
    simp only [List.takeWhile_nil, List.length_nil]
    omega
  | cons c rest ih =>
    intro next i buf bs hi h
    by_cases hc : c = '='
    · subst hc
      simp only [decodeAux, if_true, Option.some_inj] at h
      subst h
      simp [List.takeWhile_cons]
      omega
    · rw [List.takeWhile_cons_of_pos (by simp [hc])]
      simp only [decodeAux, if_neg hc] at h
      cases hdp : decode_char c with
      | none => rw [hdp] at h; exact absurd h (by simp)
      | some v =>
        rw [hdp] at h
        interval_cases i <;>
          simp only [decode_step] at h <;>
          (have hrec := ih _ _ _ _ (by omega) h
           simp only [List.length_append, List.length_cons, List.length_nil,
             List.length_singleton] at hrec ⊢
           omega)

theorem toNat_ofNat_of_valid {n : Nat} (h : n < 0xd800) : (Char.ofNat n).toNat = n := by
  rw [Char.ofNat, dif_pos (Or.inl h)]
  rfl

theorem to_ascii_uppercase_idem (c : Char) :
    to_ascii_uppercase (to_ascii_uppercase c) = to_ascii_uppercase c := by
  unfold to_ascii_uppercase
  by_cases h : 97 ≤ c.toNat ∧ c.toNat ≤ 122
  · rw [if_pos h]
    have hv : (Char.ofNat (c.toNat - 32)).toNat = c.toNat - 32 :=
      toNat_ofNat_of_valid (by omega)
    rw [if_neg (by rw [hv]; omega)]
  · rw [if_neg h, if_neg h]

theorem decode_uppercase_eq (s : String) : decode (uppercase s) = decode s := by
  unfold decode uppercase
  rw [show (String.mk (s.data.map to_ascii_uppercase)).data
        = s.data.map to_ascii_uppercase from rfl]
  rw [List.map_map]
  congr 1
  simp [Function.comp_def, to_ascii_uppercase_idem]

theorem hotp_digits_length : ∀ (k num : Nat), (hotp_digits num k).length = k := by
  intro k
  induction k with
  | zero => intro num; rfl
  | succ k ih => intro num; simp [hotp_digits, ih]

theorem hotp_digits_succ : ∀ (k num : Nat),
    hotp_digits num (k + 1) = hotp_digits num k ++ [Char.toNat '0' + num / 10 ^ k % 10] := by
  intro k
  induction k with
  | zero => intro num; simp [hotp_digits]
  | succ k ih =>
    intro num
    rw [show hotp_digits num (k + 1 + 1)
          = (Char.toNat '0' + num % 10) :: hotp_digits (num / 10) (k + 1) from rfl]
    rw [ih]
    rw [show hotp_digits num (k + 1)
          = (Char.toNat '0' + num % 10) :: hotp_digits (num / 10) k from rfl]
    simp [Nat.div_div_eq_div_mul, Nat.pow_succ]
    ring_nf

theorem hotp_digits_mem : ∀ (k num x : Nat), x ∈ hotp_digits num k →
    ∃ m, m < 10 ∧ x = 48 + m := by
  intro k
  induction k with
  | zero => intro num x hx; simp [hotp_digits] at hx
  | succ k ih =>
    intro num x hx
    simp only [hotp_digits, List.mem_cons] at hx
    cases hx with
    | inl h => exact ⟨num % 10, Nat.mod_lt _ (by omega), by rw [h]; rfl⟩
    | inr h => exact ih _ _ h

theorem digit_char_bounds {m : Nat} (hm : m < 10) :
    Char.ofNat (48 + m) ≥ '0' ∧ Char.ofNat (48 + m) ≤ '9' := by
  interval_cases m <;> exact ⟨by decide, by decide⟩

theorem lor_as_add {n b : Nat} (q : Nat) (hb : b < 2 ^ n) :
    (2 ^ n * q) ||| b = 2 ^ n * q + b :=
  (Nat.mul_add_lt_is_or hb q).symm

theorem be_chain {b0 b1 b2 b3 : Nat} (h1 : b1 < 256) (h2 : b2 < 256) (h3 : b3 < 256) :
    (((0 ||| b0 <<< 24) ||| b1 <<< 16) ||| b2 <<< 8) ||| b3 <<< 0
      = b0 * 2 ^ 24 + b1 * 2 ^ 16 + b2 * 2 ^ 8 + b3 := by
  simp only [Nat.zero_or, Nat.shiftLeft_eq, Nat.pow_zero, Nat.mul_one]
  rw [show b0 * 2 ^ 24 = 2 ^ 24 * b0 by ring]
  rw [lor_as_add _ (by omega : b1 * 2 ^ 16 < 2 ^ 24)]
  rw [show 2 ^ 24 * b0 + b1 * 2 ^ 16 = 2 ^ 16 * (b0 * 2 ^ 8 + b1) by ring]
  rw [lor_as_add _ (by omega : b2 * 2 ^ 8 < 2 ^ 16)]
  rw [show 2 ^ 16 * (b0 * 2 ^ 8 + b1) + b2 * 2 ^ 8
        = 2 ^ 8 * (b0 * 2 ^ 16 + b1 * 2 ^ 8 + b2) by ring]
  rw [lor_as_add _ (by omega : b3 < 2 ^ 8)]

/-- C1: for a 20-byte HMAC-SHA1 digest, `hotp`'s dynamic truncation offset
`hash[length-1] & 0x0F` is the low nibble of `hash[19]`, is at most 15, the
four indices `offset .. offset+3` it reads stay inside the digest, and
`extract31` yields the big-endian 32-bit integer of those four bytes with
its most significant bit cleared by `& 0x7FFFFFFF`, a value below `2^31`. -/
theorem hotp_dynamic_truncation_in_bounds (hash : List Nat) (offset : Nat)
    (hlen : hash.length = 20) (hbytes : ∀ b ∈ hash, b < 256)
    (hoff : offset = hash.getD (hash.length - 1) 0 &&& 0xF) :
    offset = hash.getD 19 0 &&& 0xF ∧ offset ≤ 15 ∧
    (∀ i, i < 4 → offset + i < hash.length) ∧
    extract31 hash offset =
      (hash.getD offset 0 * 2 ^ 24 + hash.getD (offset + 1) 0 * 2 ^ 16 +
        hash.getD (offset + 2) 0 * 2 ^ 8 + hash.getD (offset + 3) 0) &&& 0x7FFFFFFF ∧
    extract31 hash offset < 2 ^ 31 := by
  have hoff19 : offset = hash.getD 19 0 &&& 0xF := by rw [hoff, hlen]
  have hole : offset ≤ 15 := by rw [hoff19]; exact Nat.and_le_right
  have hb : ∀ i, hash.getD (offset + i) 0 < 256 := by
    intro i
    by_cases hlt : offset + i < hash.length
    · rw [List.getD_eq_getElem _ _ hlt]
      exact hbytes _ (List.getElem_mem hlt)
    · rw [List.getD_eq_default _ _ (by omega)]
      omega
  have hunfold : (List.range 4).foldl (fun value i =>
      value ||| (hash.getD (offset + i) 0 <<< ((3 - i) * 8))) 0
      = (((0 ||| hash.getD offset 0 <<< 24) ||| hash.getD (offset + 1) 0 <<< 16)
          ||| hash.getD (offset + 2) 0 <<< 8) ||| hash.getD (offset + 3) 0 <<< 0 := rfl
  have hinner : (List.range 4).foldl (fun value i =>
      value ||| (hash.getD (offset + i) 0 <<< ((3 - i) * 8))) 0
      = hash.getD offset 0 * 2 ^ 24 + hash.getD (offset + 1) 0 * 2 ^ 16 +
        hash.getD (offset + 2) 0 * 2 ^ 8 + hash.getD (offset + 3) 0 := by
    rw [hunfold, be_chain (hb 1) (hb 2) (hb 3)]
  refine ⟨hoff19, hole, by intro i hi; omega, ?_, ?_⟩
  · rw [extract31, hinner]
  · calc extract31 hash offset ≤ 0x7FFFFFFF := by rw [extract31]; exact Nat.and_le_right
      _ < 2 ^ 31 := by norm_num

/-- C1 witness: the theorem instantiated at the concrete digest
`[0, 1, ..., 19]`, whose last byte 19 gives offset 3. -/
theorem hotp_dynamic_truncation_witness :
    extract31 (List.range 20) 3 =
      ((List.range 20).getD 3 0 * 2 ^ 24 + (List.range 20).getD (3 + 1) 0 * 2 ^ 16 +
        (List.range 20).getD (3 + 2) 0 * 2 ^ 8 + (List.range 20).getD (3 + 3) 0) &&& 0x7FFFFFFF ∧
    extract31 (List.range 20) 3 < 2 ^ 31 :=
  (hotp_dynamic_truncation_in_bounds (List.range 20) 3 (by decide) (by decide) (by decide)).2.2.2

/-- C2: the decoder's per-symbol step is exactly the spec's 8-state
transition table, and a successful decode's output length is
`5 * consumedSymbols / 8` (so any bits left in an incomplete final byte are
dropped and no padding byte is emitted); bytes are appended in input
order by construction of `decodeAux`. -/
theorem decode_transition_table_and_output_length :
    (∀ i v next, i < 8 → decode_step i v next = spec_transition i v next) ∧
    ∀ (s : String) (bs : List Nat), decode s = some bs →
      bs.length = 5 * consumed_symbols s / 8 := by
  constructor
  · intro i v next hi
    interval_cases i <;> rfl
  · intro s bs h
    have := decodeAux_length (s.data.map to_ascii_uppercase) 0 0 [] bs (by omega) h
    simpa [consumed_symbols] using this

/-- C2 witness: the table agreement at state 0, value 17, and the length
law on the vector `32W353Y====` (7 consumed symbols, 4 output bytes). -/
theorem decode_transition_table_witness :
    decode_step 0 17 0 = spec_transition 0 17 0 ∧
    ([0xde, 0xad, 0xbe, 0xef] : List Nat).length = 5 * consumed_symbols ("32W353Y====") / 8 :=
  ⟨decode_transition_table_and_output_length.1 0 17 0 (by omega),
   decode_transition_table_and_output_length.2 ("32W353Y====") [0xde, 0xad, 0xbe, 0xef]
     (by decide)⟩

/-- C3: contrary to the claim, `hotp` with digit length 5 or 9 does not
return a recoverable InvalidParameter result: it hits the `panic!` at
otp.rs line 30 and terminates the process (modelled by
`PanicOr.panicked`). -/
theorem hotp_invalid_digit_len_panics :
    hotp zero_hmac [] 0 5 = PanicOr.panicked ∧ hotp zero_hmac [] 0 9 = PanicOr.panicked :=
  ⟨by decide, by decide⟩

/-- C4: contrary to the claim, `totp` validates nothing: with
`interval = 0` the division panics (process-terminating, not a recoverable
invalid-parameter result), and with `now < t0` (here t0 = 5, now = 3) the
u64 subtraction silently wraps and a 6-digit code is produced from the
wrapped counter instead of any failure. -/
theorem totp_invalid_parameter_not_recoverable :
    totp zero_hmac [] 0 0 100 = PanicOr.panicked ∧
    totp zero_hmac [] 5 30 3 = PanicOr.ret ("000000") :=
  ⟨by decide, by decide⟩

/-- C5: with the internal clock read modelled as the explicit argument `t`
(the code itself reads `SystemTime::now()` inside `totp` and takes no such
parameter), `totp` is `hotp` at counter `(t - t0) / interval` with 6
digits, and any two clock values in the same interval-length window since
`t0` give identical results. -/
theorem totp_window_determinism (hmac : List Nat → List Nat → List Nat) (key : List Nat)
    (t0 interval t1 t2 : Nat) (hint : interval ≠ 0)
    (h1 : t0 ≤ t1) (h1b : t1 < 2 ^ 64) (h2 : t0 ≤ t2) (h2b : t2 < 2 ^ 64)
    (hwin : (t1 - t0) / interval = (t2 - t0) / interval) :
    totp hmac key t0 interval t1 = hotp hmac key ((t1 - t0) / interval) 6 ∧
    totp hmac key t0 interval t1 = totp hmac key t0 interval t2 := by
  have e1 : (t1 + 2 ^ 64 - t0) % 2 ^ 64 = t1 - t0 := by omega
  have e2 : (t2 + 2 ^ 64 - t0) % 2 ^ 64 = t2 - t0 := by omega
  unfold totp
  rw [e1, e2, hwin, if_neg hint]
  exact ⟨rfl, rfl⟩

/-- C5 witness: clock values 5 and 25 fall in the same 30-second window
from t0 = 0 and give the same code. -/
theorem totp_window_determinism_witness :
    totp zero_hmac [] 0 30 5 = hotp zero_hmac [] ((5 - 0) / 30) 6 ∧
    totp zero_hmac [] 0 30 5 = totp zero_hmac [] 0 30 25 :=
  totp_window_determinism zero_hmac [] 0 30 5 25 (by decide) (by decide) (by decide)
    (by decide) (by decide) (by decide)

/-- C6: the decoder consumes exactly the characters before the first `=`
(any padding, trailing or interior, just terminates decoding and is never
validated), and it fails precisely when one of those consumed characters
is outside the alphabet. -/
theorem decode_stops_at_padding_fails_iff_bad_symbol (s : String) :
    decode s
      = decodeAux ((s.data.map to_ascii_uppercase).takeWhile (fun c => c != '=')) 0 0 [] ∧
    (decode s = none ↔
      ∃ c ∈ (s.data.map to_ascii_uppercase).takeWhile (fun c => c != '='),
        decode_char c = none) :=
  ⟨decodeAux_takeWhile _ 0 0 [], decodeAux_none_iff _ 0 0 []⟩

/-- C7: for every key and counter (HMAC digests being 20 bytes), `hotp`
returns a string of exactly 6, 7 and 8 characters for the three valid digit
lengths, and each longer code is the shorter one with one more
most-significant decimal digit of `P` prefixed (so all three share their
trailing digits). -/
theorem hotp_digit_length_and_suffix (hmac : List Nat → List Nat → List Nat)
    (key : List Nat) (c : Nat) (_hcontract : HmacContract hmac) :
    ∃ s6 s7 s8, hotp hmac key c 6 = PanicOr.ret s6 ∧ hotp hmac key c 7 = PanicOr.ret s7 ∧
      hotp hmac key c 8 = PanicOr.ret s8 ∧
      s6.length = 6 ∧ s7.length = 7 ∧ s8.length = 8 ∧
      s7.data.drop 1 = s6.data ∧ s8.data.drop 1 = s7.data := by
  refine ⟨_, _, _, rfl, rfl, rfl, ?_, ?_, ?_, ?_, ?_⟩
  · show (String.mk _).length = 6
    simp [String.length, hotp_digits_length]
  · show (String.mk _).length = 7
    simp [String.length, hotp_digits_length]
  · show (String.mk _).length = 8
    simp [String.length, hotp_digits_length]
  · show ((hotp_digits _ 7).reverse.map Char.ofNat).drop 1
        = (hotp_digits _ 6).reverse.map Char.ofNat
    rw [hotp_digits_succ 6]
    simp
  · show ((hotp_digits _ 8).reverse.map Char.ofNat).drop 1
        = (hotp_digits _ 7).reverse.map Char.ofNat
    rw [hotp_digits_succ 7]
    simp

/-- C7 witness: the digit-length and suffix relations at a concrete
contract-satisfying digest function, empty key and counter 0. -/
theorem hotp_digit_length_and_suffix_witness :
    ∃ s6 s7 s8, hotp zero_hmac [] 0 6 = PanicOr.ret s6 ∧
      hotp zero_hmac [] 0 7 = PanicOr.ret s7 ∧ hotp zero_hmac [] 0 8 = PanicOr.ret s8 ∧
      s6.length = 6 ∧ s7.length = 7 ∧ s8.length = 8 ∧
      s7.data.drop 1 = s6.data ∧ s8.data.drop 1 = s7.data :=
  hotp_digit_length_and_suffix zero_hmac [] 0 zero_hmac_contract

/-- C8: the decoding test vectors: `JBSWY3DPEHPK3PXP` yields the ten bytes
48 65 6C 6C 6F 21 DE AD BE EF, `32W353Y====` yields DE AD BE EF, and
`32W39` fails because `9` is not in the alphabet. -/
theorem decode_known_vectors :
    decode ("JBSWY3DPEHPK3PXP")
      = some [0x48, 0x65, 0x6c, 0x6c, 0x6f, 0x21, 0xde, 0xad, 0xbe, 0xef] ∧
    decode ("32W353Y====") = some [0xde, 0xad, 0xbe, 0xef] ∧
    decode ("32W39") = none :=
  ⟨by decide, by decide, by decide⟩

/-- C9: decoding is case-insensitive: every string decodes identically to
its uppercased form; in particular `jbswy3dp` and `JBSWY3DP` agree. -/
theorem decode_case_insensitive :
    (∀ s : String, decode s = decode (uppercase s)) ∧
    decode ("jbswy3dp") = decode ("JBSWY3DP") :=
  ⟨fun s => (decode_uppercase_eq s).symm, by decide⟩

/-- C10: for every key (the empty one included), every counter, and every
digit length in 6..8, `hotp` returns normally and every character of the
code is an ASCII decimal digit, so the final UTF-8 conversion cannot
fail. -/
theorem hotp_ascii_digits (hmac : List Nat → List Nat → List Nat) (key : List Nat)
    (c n : Nat) (_hcontract : HmacContract hmac) (hlo : 6 ≤ n) (hhi : n ≤ 8) :
    ∃ s, hotp hmac key c n = PanicOr.ret s ∧
      ∀ ch ∈ s.data, '0' ≤ ch ∧ ch ≤ '9' := by
  interval_cases n <;>
    (refine ⟨_, rfl, ?_⟩
     intro ch hch
     simp only [String.data, List.mem_map, List.mem_reverse] at hch
     obtain ⟨x, hx, rfl⟩ := hch
     obtain ⟨m, hm, rfl⟩ := hotp_digits_mem _ _ _ hx
     exact digit_char_bounds hm)

/-- C10 witness: the digit property at a concrete contract-satisfying
digest function, empty key, counter 0 and digit length 6. -/
theorem hotp_ascii_digits_witness :
    ∃ s, hotp zero_hmac [] 0 6 = PanicOr.ret s ∧
      ∀ ch ∈ s.data, '0' ≤ ch ∧ ch ≤ '9' :=
  hotp_ascii_digits zero_hmac [] 0 6 zero_hmac_contract (by omega) (by omega)

end Yotp
